import Mathlib

/-!
Shallow embedding of the viability-kernel core of the repository
(file src/viability/viability.py) together with theorems checking the
natural-language specification against it.

Modelling conventions:
- coordinate values are rationals (the code uses machine floats, but every
  claim here is about branching / indexing structure, not rounding);
- an N-dimensional numpy array of shape sh is represented as a function
  from flat C-order indices to values, meaningful on indices below sh.prod;
  multi-dimensional indexing A[tuple] is represented as flat indexing at
  ravelMulti tuple sh;
- numpy calls that raise (an index out of range in digitize_s, or a failed
  oracle pipeline) are represented with Option: none models the raised
  exception;
- the worker pool of parcompute_Q_map is modelled as an in-order map over
  the argument list, which is exactly the ordering contract the spec states
  for pass 2 (result i corresponds to input i).
-/

/-- Cartesian product of a list of lists, in the enumeration order of
python's itertools.product: the last factor varies fastest. -/
def listProd {α : Type} : List (List α) → List (List α)
  | [] => [[]]
  | l :: ls => l.flatMap fun x => (listProd ls).map (x :: ·)

/-- Behaviour of np.digitize(v, g) for a monotonically increasing grid g
with the default right=False: the index i such that g[i-1] <= v < g[i],
that is, the length of the longest prefix of g whose entries are <= v. -/
def npDigitize (v : ℚ) : List ℚ → ℕ
  | [] => 0
  | b :: bs => if v < b then 0 else npDigitize v bs + 1

/-- Helper for argminAbs: scan the tail, remembering the index and value of
the current minimum; np.argmin keeps the first minimum, hence the strict
comparison. -/
def argminAux (v : ℚ) : List ℚ → ℕ → ℕ → ℚ → ℕ
  | [], _, best, _ => best
  | x :: xs, i, best, bv =>
    if |x - v| < bv then argminAux v xs (i + 1) i |x - v|
    else argminAux v xs (i + 1) best bv

/-- Behaviour of np.argmin(np.abs(grid - s)): index of the grid entry
closest to v, ties broken toward the lower index. -/
def argminAbs (v : ℚ) : List ℚ → ℕ
  | [] => 0
  | x :: xs => argminAux v xs 1 0 |x - v|

/-- Shape of the state grid: the list of sizes of the per-dimension grids
(list(map(np.size, s_grid)) in the code). -/
def gridSizes (s_grid : List (List ℚ)) : List ℕ := s_grid.map List.length

/-- Shape of the bin space: each dimension has one extra overflow bin
(tuple(dim+1 for dim in s_grid_shape) in the code). -/
def binShape (s_grid : List (List ℚ)) : List ℕ := (gridSizes s_grid).map (· + 1)

/-- Row-major (C-order) linearization of a multi-index, as performed by
np.ravel_multi_index and by multi-dimensional numpy indexing. -/
def ravelMulti : List ℕ → List ℕ → ℕ
  | [], _ => 0
  | _, [] => 0
  | i :: is, _ :: ns => i * ns.prod + ravelMulti is ns

/-- Row-major (C-order) delinearization of a flat index, as performed by
np.unravel_index on an in-range flat index. -/
def unravelIndex : ℕ → List ℕ → List ℕ
  | _, [] => []
  | flat, _ :: rest => flat / rest.prod :: unravelIndex (flat % rest.prod) rest

/-- Embedding of digitize_s from src/viability/viability.py, unraveled form
(shape=None). The loop indexes s[dim_idx] for every dimension of s_grid, so
it raises (none) exactly when the point has fewer coordinates than the grid
tuple; surplus coordinates of s are silently ignored. With to_bin=True each
dimension is binned with np.digitize, otherwise with the argmin rule. -/
def digitize_s (s : List ℚ) (s_grid : List (List ℚ)) (to_bin : Bool) :
    Option (List ℕ) :=
  if s_grid.length ≤ s.length then
    some ((s.zip s_grid).map fun p =>
      if to_bin then npDigitize p.1 p.2 else argminAbs p.1 p.2)
  else none

/-- Embedding of digitize_s when a shape is passed: the per-dimension index
vector is flattened with np.ravel_multi_index over that shape. -/
def digitize_s_ravel (s : List ℚ) (s_grid : List (List ℚ)) (shape : List ℕ)
    (to_bin : Bool) : Option ℕ :=
  (digitize_s s s_grid to_bin).map fun idx => ravelMulti idx shape

/-- Bounds check used inside get_grid_indices: a corner candidate is kept
only when every coordinate lies inside [0, size of that grid dimension). -/
def cornerOk (nb : List ℤ) (s_grid : List (List ℚ)) : Bool :=
  (nb.zip s_grid).all fun pr =>
    decide (0 ≤ pr.1) && decide (pr.1 < (pr.2.length : ℤ))

/-- Embedding of get_grid_indices from src/viability/viability.py: from an
unraveled bin index, the list of surrounding grid indices, obtained as the
itertools.product of (x-1, x) over the coordinates, discarding candidates
with any out-of-bounds coordinate. -/
def get_grid_indices (bin_idx : List ℤ) (s_grid : List (List ℚ)) :
    List (List ℤ) :=
  (listProd (bin_idx.map fun x => [x - 1, x])).filter fun nb => cornerOk nb s_grid

/-- Embedding of is_outside from src/viability/viability.py on the call
path used by compute_QV (already_binned=True, so s is a flat index). S_V is
the state-space boolean array in flat form; the multi-dimensional numpy
lookups S_V[sdx] and S_V[idx] are flat lookups at the raveled index. -/
def is_outside (s : ℕ) (s_grid : List (List ℚ)) (S_V : ℕ → Bool)
    (on_grid : Bool) : Bool :=
  let bin_idx := unravelIndex s (binShape s_grid)
  if on_grid then
    let sdx := unravelIndex s (gridSizes s_grid)
    !(S_V (ravelMulti sdx (gridSizes s_grid)))
  else
    let edge_indices := get_grid_indices (bin_idx.map Int.ofNat) s_grid
    if 0 < edge_indices.length then
      edge_indices.any fun idx =>
        !(S_V (ravelMulti (idx.map Int.toNat) (gridSizes s_grid)))
    else true

/-- State and action grids, as the grids dict of the code: a tuple of
strictly increasing 1-D arrays for states and one for actions. -/
structure Grids where
  states : List (List ℚ)
  actions : List (List ℚ)

/-- Number of state grid points (product of the state grid sizes). -/
def NSg (grids : Grids) : ℕ := (gridSizes grids.states).prod

/-- Number of action grid points (product of the action grid sizes). -/
def NAg (grids : Grids) : ℕ := (grids.actions.map List.length).prod

/-- Number of state-action entries of the Q arrays. -/
def NQ (grids : Grids) : ℕ := NSg grids * NAg grids

/-- Embedding of project_Q2S with the default aggregator np.any: logical OR
over the trailing action axes. In flat C-order form, state index i covers
the flat Q indices i*NA .. i*NA+NA-1. -/
def project_Q2S (NA : ℕ) (Q : ℕ → Bool) : ℕ → Bool :=
  fun i => (List.range NA).any fun j => Q (i * NA + j)

/-- One pruning pass of the solver loop of compute_QV: a state-action entry
stays viable iff it was viable and its recorded successor is not outside
the snapshot S_V. Within a pass the code only reads the snapshot S_V and
each Q_V entry once, so the pass is this pointwise map. -/
def qvPass (Qm : ℕ → ℕ) (s_grid : List (List ℚ)) (Qog : ℕ → Bool)
    (S_V Q_V : ℕ → Bool) : ℕ → Bool :=
  fun q => Q_V q && !(is_outside (Qm q) s_grid S_V (Qog q))

/-- Equality test of two state-space boolean arrays on the first NS flat
entries (np.array_equal on arrays of NS booleans). -/
def sArrEq (NS : ℕ) (S S' : ℕ → Bool) : Bool :=
  (List.range NS).all fun i => S i == S' i

/-- The while loop of compute_QV, with an explicit fuel parameter standing
for the (proved, see the termination theorem) finiteness of the loop: while
S_V differs from S_old, run a pass, shift S_V into S_old and recompute the
projection. -/
def qvLoop (Qm : ℕ → ℕ) (s_grid : List (List ℚ)) (Qog : ℕ → Bool)
    (NA NS : ℕ) :
    ℕ → (ℕ → Bool) → (ℕ → Bool) → (ℕ → Bool) → ((ℕ → Bool) × (ℕ → Bool))
  | 0, Q_V, _, S_V => (Q_V, S_V)
  | fuel + 1, Q_V, S_old, S_V =>
    if sArrEq NS S_V S_old then (Q_V, S_V)
    else
      qvLoop Qm s_grid Qog NA NS fuel (qvPass Qm s_grid Qog S_V Q_V) S_V
        (project_Q2S NA (qvPass Qm s_grid Qog S_V Q_V))

/-- Embedding of compute_QV from src/viability/viability.py. Without a seed
the initial viable set is Q_map.astype(bool), that is, entry q is viable
iff Q_map[q] is nonzero; without Q_on_grid every entry is treated as
binned. S_old starts as an all-zero array and S_V as the projection of the
initial Q_V. -/
def compute_QV (fuel : ℕ) (Qm : ℕ → ℕ) (grids : Grids)
    (Q_V : Option (ℕ → Bool)) (Q_on_grid : Option (ℕ → Bool)) :
    ((ℕ → Bool) × (ℕ → Bool)) :=
  let Q_V0 := match Q_V with
    | none => fun q => decide (Qm q ≠ 0)
    | some Q => Q
  let Qog := Q_on_grid.getD fun _ => false
  qvLoop Qm grids.states Qog (NAg grids) (NSg grids) fuel Q_V0
    (fun _ => false) (project_Q2S (NAg grids) Q_V0)

/-- Embedding of map_S2Q from src/viability/viability.py. S_M is the
state-space measure in flat form with shape SMshape; for each viable entry
the successor is unraveled (over the grid shape when flagged on-grid, over
the bin shape otherwise), its surrounding grid indices are collected, and
the entry receives the arithmetic mean of S_M over them, zero when there
are none; non-viable entries keep the zero initialization. -/
def map_S2Q (Qm : ℕ → ℕ) (S_M : ℕ → ℚ) (SMshape : List ℕ)
    (s_grid : List (List ℚ)) (Q_V : Option (ℕ → Bool))
    (Q_on_grid : Option (ℕ → Bool)) : ℕ → ℚ :=
  let Qog := Q_on_grid.getD fun _ => false
  let QV := match Q_V with
    | none => fun q => decide (Qm q ≠ 0)
    | some Q => Q
  fun q =>
    if QV q then
      let sdx := if Qog q then unravelIndex (Qm q) SMshape
                 else unravelIndex (Qm q) (SMshape.map (· + 1))
      let edge_indices := get_grid_indices (sdx.map Int.ofNat) s_grid
      if 0 < edge_indices.length then
        ((edge_indices.map fun idx =>
          S_M (ravelMulti (idx.map Int.toNat) SMshape)).sum)
          / (edge_indices.length : ℚ)
      else 0
    else 0

/-- The oracle bundle handed to the transition-map builders: default
parameters p, the encode collaborator sa2xp, the one-step transition
(calling p_map(x, p) in the code, named run here), and the decode
collaborator xp2s. All are pure functions of their arguments, which is the
purity discipline the spec demands of the oracle. -/
structure PMap (X P : Type) where
  p : P
  sa2xp : List ℚ → P → X × P
  run : X → P → X × Bool
  xp2s : X → P → List ℚ

/-- Enumeration of all state-action grid points, in the order of
itertools.product over the state grids then the action grids. -/
def saPoints (grids : Grids) : List (List ℚ) :=
  listProd (grids.states ++ grids.actions)

/-- The on-grid test of compute_Q_map: walk the coordinates of s_next and
compare with the grid of the same dimension; the walk stops at the first
coordinate not on its grid (bin path), and raises (none) only when all the
paired coordinates matched and s_next has more coordinates than there are
state grids. -/
def onGridCheck (s_next : List ℚ) (states : List (List ℚ)) : Option Bool :=
  if (s_next.zip states).all (fun pr => decide (pr.1 ∈ pr.2)) then
    if states.length < s_next.length then none else some true
  else some false

/-- Binning step shared verbatim by compute_Q_map and parcompute_Q_map for
a non-failing result: with check_grid, an exactly-on-grid successor is
stored as a raveled grid index with the on-grid flag set, otherwise (and
always without check_grid) as a raveled bin index. A triple is
(Q_map entry, Q_F entry, Q_on_grid entry). -/
def binEntry (grids : Grids) (check_grid : Bool) (s_next : List ℚ) :
    Option (ℕ × Bool × Bool) :=
  if check_grid then
    match onGridCheck s_next grids.states with
    | none => none
    | some true =>
      (digitize_s_ravel s_next grids.states (gridSizes grids.states)
        false).map fun n => (n, false, true)
    | some false =>
      (digitize_s_ravel s_next grids.states (binShape grids.states)
        true).map fun n => (n, false, false)
  else
    (digitize_s_ravel s_next grids.states (binShape grids.states)
      true).map fun n => (n, false, false)

/-- Per-point work of the sequential builder compute_Q_map: encode with the
attached default parameters, run the oracle, decode with the parameters
returned by sa2xp, and bin. A failed step records Q_F and leaves the Q_map
entry at its zero default. -/
def qEntry {X P : Type} (pm : PMap X P) (grids : Grids) (check_grid : Bool)
    (sa : List ℚ) : Option (ℕ × Bool × Bool) :=
  let xp := pm.sa2xp sa pm.p
  let r := pm.run xp.1 xp.2
  if r.2 then some (0, true, false)
  else binEntry grids check_grid (pm.xp2s r.1 xp.2)

/-- Per-point work of the parallel builder parcompute_Q_map: identical to
the sequential one except that pass 3 decodes with the copied default
parameters p rather than with the parameters produced by sa2xp for that
point. -/
def qEntryPar {X P : Type} (pm : PMap X P) (grids : Grids)
    (check_grid : Bool) (sa : List ℚ) : Option (ℕ × Bool × Bool) :=
  let xp := pm.sa2xp sa pm.p
  let r := pm.run xp.1 xp.2
  if r.2 then some (0, true, false)
  else binEntry grids check_grid (pm.xp2s r.1 pm.p)

/-- Embedding of compute_Q_map from src/viability/viability.py: the list of
(Q_map, Q_F, Q_on_grid) entries over all state-action points in enumeration
order; entry q of the list is flat entry q of the reshaped arrays. An
oracle-pipeline exception at any point aborts the whole build (none). -/
def compute_Q_map {X P : Type} (grids : Grids) (pm : PMap X P)
    (check_grid : Bool) : Option (List (ℕ × Bool × Bool)) :=
  (saPoints grids).mapM (qEntry pm grids check_grid)

/-- Embedding of parcompute_Q_map from src/viability/viability.py: pass 1
encodes every point, pass 2 maps the oracle over the argument list with the
worker pool preserving order, pass 3 bins; fused per point, with the
parameter-passing discrepancy of pass 3 kept (see qEntryPar). -/
def parcompute_Q_map {X P : Type} (grids : Grids) (pm : PMap X P)
    (check_grid : Bool) : Option (List (ℕ × Bool × Bool)) :=
  (saPoints grids).mapM (qEntryPar pm grids check_grid)

/-- Flat Q_map array of a built transition table. -/
def qmapOf (es : List (ℕ × Bool × Bool)) : ℕ → ℕ :=
  fun q => (es.getD q (0, false, false)).1

/-- Flat Q_F array of a built transition table. -/
def qfOf (es : List (ℕ × Bool × Bool)) : ℕ → Bool :=
  fun q => (es.getD q (0, false, false)).2.1

/-- Flat Q_on_grid array of a built transition table. -/
def qogOf (es : List (ℕ × Bool × Bool)) : ℕ → Bool :=
  fun q => (es.getD q (0, false, false)).2.2

/-- Number of true entries among the first N flat entries of a boolean
array. -/
def countTrue (N : ℕ) (A : ℕ → Bool) : ℕ :=
  ((Finset.range N).filter fun i => A i = true).card

/-- Concrete oracle for counterexample runs: a state below 2 steps down to
0 (off the lower edge of the grid [1, 2]), any other state steps to 1;
never failing. -/
def pmShift : PMap (List ℚ) Unit :=
  { p := ()
    sa2xp := fun sa _ => (sa, ())
    run := fun x _ => (x, false)
    xp2s := fun x _ => if x.getD 0 0 < 2 then [0] else [1] }

/-- Concrete grids for counterexample runs: one state dimension with grid
points 1 and 2, one action dimension with the single action 0. -/
def gridsShift : Grids := { states := [[1, 2]], actions := [[0]] }

/-- Concrete oracle whose decode collaborator reads the parameters that the
encode collaborator produced from the action coordinate: exposes the
parameter-passing discrepancy between the two builders. -/
def pmParamDecode : PMap (List ℚ) ℚ :=
  { p := 0
    sa2xp := fun sa _ => (sa, sa.getD 1 0)
    run := fun x _ => (x, false)
    xp2s := fun _ p => [p] }

/-- Concrete grids for the builder-equivalence counterexample: states 0 and
1, single action 5 (so the per-point parameter handed to sa2xp is 5 while
the attached default parameter is 0). -/
def gridsParamDecode : Grids := { states := [[0, 1]], actions := [[5]] }

/-- Concrete oracle whose decode collaborator ignores its parameter
argument, like the xp2s functions of the repository models. -/
def pmPlainDecode : PMap (List ℚ) ℚ :=
  { p := 0
    sa2xp := fun sa _ => (sa, sa.getD 1 0)
    run := fun x _ => (x, decide (x.getD 0 0 < 0))
    xp2s := fun x _ => [x.getD 0 0] }

/-- Concrete grids for small solver runs: states 0 and 1, single action. -/
def gridsSmall : Grids := { states := [[0, 1]], actions := [[0]] }

/-!
Helper lemmas about the grid indexer: lengths, bounds and inversion of the
ravel/unravel pair, membership in the corner enumeration.
-/

theorem unravelIndex_length (flat : ℕ) (shape : List ℕ) :
    (unravelIndex flat shape).length = shape.length := by
  induction shape generalizing flat with
  | nil => rfl
  | cons n rest ih => simp [unravelIndex, ih]

theorem listProd_mem {α : Type} {Ls : List (List α)} {ys : List α} :
    ys ∈ listProd Ls ↔ List.Forall₂ (fun x l => x ∈ l) ys Ls := by
  induction Ls generalizing ys with
  | nil =>
    simp [listProd, List.forall₂_nil_right_iff]
  | cons l ls ih =>
    simp only [listProd, List.mem_flatMap, List.mem_map]
    constructor
    · rintro ⟨x, hx, t, ht, rfl⟩
      exact List.Forall₂.cons hx (ih.mp ht)
    · intro h
      rcases List.forall₂_cons_right_iff.mp h with ⟨x, t, hx, ht, rfl⟩
      exact ⟨x, hx, t, ih.mpr ht, rfl⟩

theorem unravelIndex_forall2_lt (shape : List ℕ) (flat : ℕ)
    (hpos : ∀ n ∈ shape, 0 < n) (h : flat < shape.prod) :
    List.Forall₂ (· < ·) (unravelIndex flat shape) shape := by
  induction shape generalizing flat with
  | nil => exact List.Forall₂.nil
  | cons n rest ih =>
    have hrest : 0 < rest.prod :=
      List.prod_pos fun m hm => hpos m (List.mem_cons_of_mem _ hm)
    rw [List.prod_cons] at h
    refine List.Forall₂.cons ?_
      (ih (flat % rest.prod) (fun m hm => hpos m (List.mem_cons_of_mem _ hm))
        (Nat.mod_lt _ hrest))
    exact (Nat.div_lt_iff_lt_mul hrest).mpr h

theorem ravelMulti_lt {idx shape : List ℕ}
    (h : List.Forall₂ (· < ·) idx shape) : ravelMulti idx shape < shape.prod := by
  induction idx generalizing shape with
  | nil =>
    have := List.forall₂_nil_left_iff.mp h
    subst this
    simp [ravelMulti]
  | cons i is ih =>
    rcases List.forall₂_cons_left_iff.mp h with ⟨n, ns, hin, hrest, rfl⟩
    have h1 := ih hrest
    have h2 : (i + 1) * ns.prod ≤ n * ns.prod := Nat.mul_le_mul_right _ hin
    simp only [ravelMulti, List.prod_cons]
    have h3 : i * ns.prod + ns.prod = (i + 1) * ns.prod := by ring
    omega

theorem ravelMulti_unravelIndex (shape : List ℕ) (flat : ℕ)
    (hpos : ∀ n ∈ shape, 0 < n) (h : flat < shape.prod) :
    ravelMulti (unravelIndex flat shape) shape = flat := by
  induction shape generalizing flat with
  | nil =>
    simp only [List.prod_nil, Nat.lt_one_iff] at h
    simp [unravelIndex, ravelMulti, h]
  | cons n rest ih =>
    have hrest : 0 < rest.prod :=
      List.prod_pos fun m hm => hpos m (List.mem_cons_of_mem _ hm)
    simp only [unravelIndex, ravelMulti]
    rw [ih (flat % rest.prod) (fun m hm => hpos m (List.mem_cons_of_mem _ hm))
      (Nat.mod_lt _ hrest)]
    rw [Nat.mul_comm]
    exact Nat.div_add_mod flat rest.prod

theorem get_grid_indices_mem {c bin : List ℤ} {sg : List (List ℚ)} :
    c ∈ get_grid_indices bin sg ↔
      (List.Forall₂ (fun y l => y ∈ l) c (bin.map fun x => [x - 1, x]) ∧
        cornerOk c sg = true) := by
  simp [get_grid_indices, List.mem_filter, listProd_mem]

theorem get_grid_indices_length {c bin : List ℤ} {sg : List (List ℚ)}
    (h : c ∈ get_grid_indices bin sg) : c.length = bin.length := by
  have := ((get_grid_indices_mem.mp h).1).length_eq
  simpa using this

theorem cornerOk_bounds {c : List ℤ} {sg : List (List ℚ)}
    (hlen : c.length = sg.length) (h : cornerOk c sg = true) :
    List.Forall₂ (fun (y : ℤ) (g : List ℚ) => 0 ≤ y ∧ y < (g.length : ℤ)) c sg := by
  rw [List.forall₂_iff_zip]
  refine ⟨hlen, ?_⟩
  intro a b hab
  have := (List.all_eq_true.mp h) (a, b) hab
  simpa using this

theorem corner_ravel_lt {c bin : List ℤ} {sg : List (List ℚ)}
    (hmem : c ∈ get_grid_indices bin sg) (hlen : bin.length = sg.length) :
    ravelMulti (c.map Int.toNat) (gridSizes sg) < (gridSizes sg).prod := by
  have hcl : c.length = sg.length := (get_grid_indices_length hmem).trans hlen
  have hb := cornerOk_bounds hcl (get_grid_indices_mem.mp hmem).2
  refine ravelMulti_lt ?_
  rw [List.forall₂_map_left_iff]
  unfold gridSizes
  rw [List.forall₂_map_right_iff]
  exact hb.imp fun hy => by omega

theorem get_grid_indices_ne_nil {bin : List ℕ} {sg : List (List ℚ)}
    (hb : List.Forall₂ (fun x n => x < n) bin (binShape sg))
    (hg : ∀ g ∈ sg, g ≠ []) :
    get_grid_indices (bin.map Int.ofNat) sg ≠ [] := by
  suffices h : ∃ c, c ∈ get_grid_indices (bin.map Int.ofNat) sg by
    rcases h with ⟨c, hc⟩
    intro he
    rw [he] at hc
    exact (List.not_mem_nil c) hc
  induction sg generalizing bin with
  | nil =>
    have : bin = [] := by
      have := hb.length_eq
      simpa [binShape, gridSizes, List.length_eq_zero] using this
    subst this
    exact ⟨[], by simp [get_grid_indices, listProd, cornerOk]⟩
  | cons g gs ih =>
    have hb' : List.Forall₂ (fun x n => x < n) bin ((g.length + 1) :: binShape gs) := by
      simpa [binShape, gridSizes] using hb
    rcases List.forall₂_cons_right_iff.mp hb' with ⟨x, bs, hx, hrest, rfl⟩
    rcases ih hrest (fun g' hg' => hg g' (List.mem_cons_of_mem _ hg')) with ⟨c, hc⟩
    have hglen : 0 < g.length := List.length_pos.mpr (hg g (List.mem_cons_self _ _))
    rcases get_grid_indices_mem.mp hc with ⟨hcmem, hcok⟩
    have hpick : ∃ y : ℤ, y ∈ [(x : ℤ) - 1, (x : ℤ)] ∧ 0 ≤ y ∧ y < (g.length : ℤ) := by
      by_cases h0 : x = 0
      · exact ⟨0, by simp [h0], le_refl 0, by exact_mod_cast hglen⟩
      · exact ⟨(x : ℤ) - 1, by simp, by omega, by omega⟩
    rcases hpick with ⟨y, hymem, hy0, hylt⟩
    refine ⟨y :: c, ?_⟩
    rw [get_grid_indices_mem]
    constructor
    · rw [List.map_cons]
      exact List.Forall₂.cons hymem hcmem
    · unfold cornerOk
      rw [List.zip_cons_cons, List.all_cons]
      have hy : (decide (0 ≤ y) && decide (y < ((g.length : ℕ) : ℤ))) = true := by
        simp only [Bool.and_eq_true, decide_eq_true_eq]
        exact ⟨hy0, hylt⟩
      rw [hy]
      simpa [cornerOk] using hcok

/-!
Helper lemmas about the solver: the pass only clears entries, the
projection is monotone, array equality tests, and loop invariants.
-/

theorem qvPass_le (Qm : ℕ → ℕ) (sg : List (List ℚ)) (Qog S Q : ℕ → Bool)
    (q : ℕ) (h : qvPass Qm sg Qog S Q q = true) : Q q = true := by
  by_contra hq
  simp only [Bool.not_eq_true] at hq
  simp only [qvPass, hq, Bool.false_and] at h
  cases h

theorem project_Q2S_mono {NA : ℕ} {Q Q' : ℕ → Bool}
    (h : ∀ q, Q q = true → Q' q = true) (i : ℕ)
    (hi : project_Q2S NA Q i = true) : project_Q2S NA Q' i = true := by
  rcases List.any_eq_true.mp hi with ⟨j, hj, hq⟩
  exact List.any_eq_true.mpr ⟨j, hj, h _ hq⟩

theorem sArrEq_iff {NS : ℕ} {S S' : ℕ → Bool} :
    sArrEq NS S S' = true ↔ ∀ i < NS, S i = S' i := by
  simp [sArrEq, List.all_eq_true]

theorem qvLoop_fst_le (Qm : ℕ → ℕ) (sg : List (List ℚ)) (Qog : ℕ → Bool)
    (NA NS : ℕ) (fuel : ℕ) :
    ∀ (Q S_old S_V : ℕ → Bool) (q : ℕ),
      (qvLoop Qm sg Qog NA NS fuel Q S_old S_V).1 q = true → Q q = true := by
  induction fuel with
  | zero => intro Q S_old S_V q h; exact h
  | succ fuel ih =>
    intro Q S_old S_V q h
    rw [qvLoop] at h
    split at h
    · exact h
    · exact qvPass_le _ _ _ _ _ _ (ih _ _ _ _ h)

theorem countTrue_le_of_imp {N : ℕ} {A B : ℕ → Bool}
    (h : ∀ i, A i = true → B i = true) : countTrue N A ≤ countTrue N B := by
  apply Finset.card_le_card
  intro i hi
  rw [Finset.mem_filter] at hi ⊢
  exact ⟨hi.1, h i hi.2⟩

theorem countTrue_lt_of_witness {N : ℕ} {A B : ℕ → Bool}
    (h : ∀ i, A i = true → B i = true) (j : ℕ) (hj : j < N)
    (hA : A j = false) (hB : B j = true) : countTrue N A < countTrue N B := by
  apply Finset.card_lt_card
  constructor
  · intro i hi
    rw [Finset.mem_filter] at hi ⊢
    exact ⟨hi.1, h i hi.2⟩
  · intro hsub
    have hjB : j ∈ (Finset.range N).filter fun i => B i = true := by
      rw [Finset.mem_filter]
      exact ⟨Finset.mem_range.mpr hj, hB⟩
    have := hsub hjB
    rw [Finset.mem_filter] at this
    rw [this.2] at hA
    cases hA

theorem countTrue_le (N : ℕ) (A : ℕ → Bool) : countTrue N A ≤ N := by
  calc countTrue N A ≤ (Finset.range N).card := Finset.card_filter_le _ _
  _ = N := Finset.card_range N

theorem countTrue_eq_iff_all {N : ℕ} {A : ℕ → Bool} :
    countTrue N A = N ↔ ∀ i < N, A i = true := by
  constructor
  · intro h i hi
    simp only [countTrue] at h
    have hsub : (Finset.range N).filter (fun i => A i = true) = Finset.range N := by
      apply Finset.eq_of_subset_of_card_le (Finset.filter_subset _ _)
      rw [h, Finset.card_range]
    by_contra hA
    have : i ∈ (Finset.range N).filter fun i => A i = true := by
      rw [hsub]
      exact Finset.mem_range.mpr hi
    rw [Finset.mem_filter] at this
    exact hA this.2
  · intro h
    rw [countTrue]
    rw [Finset.filter_true_of_mem fun i hi => h i (Finset.mem_range.mp hi)]
    exact Finset.card_range N

theorem binShape_pos (sg : List (List ℚ)) : ∀ n ∈ binShape sg, 0 < n := by
  intro n hn
  rcases List.mem_map.mp hn with ⟨m, _, rfl⟩
  exact Nat.succ_pos m

theorem gridSizes_pos {sg : List (List ℚ)} (hg : ∀ g ∈ sg, g ≠ []) :
    ∀ n ∈ gridSizes sg, 0 < n := by
  intro n hn
  rcases List.mem_map.mp hn with ⟨g, hgmem, rfl⟩
  exact List.length_pos.mpr (hg g hgmem)

theorem is_outside_false_of_all_true (s : ℕ) (sg : List (List ℚ))
    (S : ℕ → Bool) (og : Bool) (hg : ∀ g ∈ sg, g ≠ [])
    (hS : ∀ i < (gridSizes sg).prod, S i = true)
    (hog : og = true → s < (gridSizes sg).prod)
    (hbin : og = false → s < (binShape sg).prod) :
    is_outside s sg S og = false := by
  cases og with
  | true =>
    have hs := hog rfl
    simp only [is_outside, if_pos]
    rw [ravelMulti_unravelIndex _ _ (gridSizes_pos hg) hs, hS s hs]
    rfl
  | false =>
    have hs := hbin rfl
    have hb : List.Forall₂ (fun x n => x < n) (unravelIndex s (binShape sg))
        (binShape sg) :=
      unravelIndex_forall2_lt _ _ (binShape_pos sg) hs
    have hne := get_grid_indices_ne_nil hb hg
    simp only [is_outside, Bool.false_eq_true, if_false]
    rw [if_pos (List.length_pos.mpr hne)]
    rw [List.any_eq_false]
    intro c hc
    have hlen : ((unravelIndex s (binShape sg)).map Int.ofNat).length
        = sg.length := by
      rw [List.length_map, unravelIndex_length]
      simp [binShape, gridSizes]
    have := corner_ravel_lt hc hlen
    rw [hS _ this]
    simp

theorem qvLoop_stop {Qm : ℕ → ℕ} {sg : List (List ℚ)} {Qog : ℕ → Bool}
    {NA NS : ℕ} {S_old S_V : ℕ → Bool} (h : sArrEq NS S_V S_old = true)
    (fuel : ℕ) (Q : ℕ → Bool) :
    qvLoop Qm sg Qog NA NS fuel Q S_old S_V = (Q, S_V) := by
  cases fuel with
  | zero => rfl
  | succ f => rw [qvLoop, if_pos h]

/-!
Helper lemmas about Option-valued mapM over lists, and the per-entry
properties of the transition-map builders.
-/

theorem mapM_option_mem {α β : Type} {f : α → Option β} :
    ∀ {l : List α} {es : List β}, l.mapM f = some es →
      ∀ e ∈ es, ∃ a ∈ l, f a = some e := by
  intro l
  induction l with
  | nil =>
    intro es h e he
    rw [List.mapM_nil] at h
    cases h
    cases he
  | cons a l ih =>
    intro es h e he
    rw [List.mapM_cons] at h
    cases hfa : f a with
    | none => rw [hfa] at h; cases h
    | some b =>
      rw [hfa] at h
      cases hml : l.mapM f with
      | none => rw [hml] at h; cases h
      | some bs =>
        rw [hml] at h
        simp only [Option.bind_eq_bind, Option.some_bind, Option.pure_def,
          Option.some.injEq] at h
        subst h
        rcases List.mem_cons.mp he with rfl | hmem
        · exact ⟨a, List.mem_cons_self _ _, hfa⟩
        · rcases ih hml e hmem with ⟨a', ha', hfa'⟩
          exact ⟨a', List.mem_cons_of_mem _ ha', hfa'⟩

theorem mapM_option_length {α β : Type} {f : α → Option β} :
    ∀ {l : List α} {es : List β}, l.mapM f = some es → es.length = l.length := by
  intro l
  induction l with
  | nil =>
    intro es h
    rw [List.mapM_nil] at h
    cases h
    rfl
  | cons a l ih =>
    intro es h
    rw [List.mapM_cons] at h
    cases hfa : f a with
    | none => rw [hfa] at h; cases h
    | some b =>
      rw [hfa] at h
      cases hml : l.mapM f with
      | none => rw [hml] at h; cases h
      | some bs =>
        rw [hml] at h
        simp only [Option.bind_eq_bind, Option.some_bind, Option.pure_def,
          Option.some.injEq] at h
        subst h
        simp [ih hml]

theorem mapM_option_congr {α β : Type} {f g : α → Option β} :
    ∀ {l : List α}, (∀ a ∈ l, f a = g a) → l.mapM f = l.mapM g := by
  intro l
  induction l with
  | nil => intro _; rfl
  | cons a l ih =>
    intro h
    rw [List.mapM_cons, List.mapM_cons, h a (List.mem_cons_self _ _),
      ih fun b hb => h b (List.mem_cons_of_mem _ hb)]

theorem getD_mem_of_lt {α : Type} {l : List α} {i : ℕ} (h : i < l.length)
    (d : α) : l.getD i d ∈ l := by
  rw [List.getD_eq_getElem l d h]
  exact List.getElem_mem h

theorem binEntry_not_failed {grids : Grids} {cg : Bool} {s_next : List ℚ}
    {e : ℕ × Bool × Bool} (h : binEntry grids cg s_next = some e) :
    e.2.1 = false := by
  unfold binEntry at h
  split at h
  · split at h
    · cases h
    · rcases Option.map_eq_some'.mp h with ⟨n, _, rfl⟩
      rfl
    · rcases Option.map_eq_some'.mp h with ⟨n, _, rfl⟩
      rfl
  · rcases Option.map_eq_some'.mp h with ⟨n, _, rfl⟩
    rfl

theorem qEntry_failed_zero {X P : Type} {pm : PMap X P} {grids : Grids}
    {cg : Bool} {sa : List ℚ} {e : ℕ × Bool × Bool}
    (h : qEntry pm grids cg sa = some e) (hf : e.2.1 = true) : e.1 = 0 := by
  simp only [qEntry] at h
  split at h
  · cases h
    rfl
  · have := binEntry_not_failed h
    rw [this] at hf
    cases hf

theorem flatQ_lt {i j NA NS : ℕ} (hi : i < NS) (hj : j < NA) :
    i * NA + j < NS * NA := by
  have h1 : i * NA + j < (i + 1) * NA := by
    have : (i + 1) * NA = i * NA + NA := by ring
    omega
  have h2 : (i + 1) * NA ≤ NS * NA := Nat.mul_le_mul_right _ hi
  omega

theorem qvLoop_proj (Qm : ℕ → ℕ) (sg : List (List ℚ)) (Qog : ℕ → Bool)
    (NA NS : ℕ) (fuel : ℕ) :
    ∀ (Q S_old : ℕ → Bool),
      (qvLoop Qm sg Qog NA NS fuel Q S_old (project_Q2S NA Q)).2 =
        project_Q2S NA (qvLoop Qm sg Qog NA NS fuel Q S_old (project_Q2S NA Q)).1 := by
  induction fuel with
  | zero => intro Q S_old; rfl
  | succ fuel ih =>
    intro Q S_old
    rw [qvLoop]
    split
    · rfl
    · exact ih _ _

theorem qvLoop_stable (Qm : ℕ → ℕ) (sg : List (List ℚ)) (Qog : ℕ → Bool)
    (NA NS : ℕ) :
    ∀ (c : ℕ) (Q S_old : ℕ → Bool), countTrue NS (project_Q2S NA Q) ≤ c →
      ∀ fuel, c + 1 ≤ fuel →
        qvLoop Qm sg Qog NA NS fuel Q S_old (project_Q2S NA Q) =
          qvLoop Qm sg Qog NA NS (c + 1) Q S_old (project_Q2S NA Q) := by
  intro c
  induction c with
  | zero =>
    intro Q S_old hc fuel hf
    by_cases hstop : sArrEq NS (project_Q2S NA Q) S_old = true
    · rw [qvLoop_stop hstop, qvLoop_stop hstop]
    · obtain ⟨f', rfl⟩ : ∃ f', fuel = f' + 1 := ⟨fuel - 1, by omega⟩
      conv_lhs => rw [qvLoop]
      conv_rhs => rw [qvLoop]
      rw [if_neg hstop, if_neg hstop]
      have hzero : ∀ i < NS, project_Q2S NA Q i = false := by
        intro i hi
        by_contra hne
        simp only [Bool.not_eq_false] at hne
        have : i ∈ (Finset.range NS).filter fun i => project_Q2S NA Q i = true := by
          rw [Finset.mem_filter]
          exact ⟨Finset.mem_range.mpr hi, hne⟩
        have hpos : 0 < countTrue NS (project_Q2S NA Q) :=
          Finset.card_pos.mpr ⟨i, this⟩
        omega
      have hstop2 : sArrEq NS
          (project_Q2S NA (qvPass Qm sg Qog (project_Q2S NA Q) Q))
          (project_Q2S NA Q) = true := by
        rw [sArrEq_iff]
        intro i hi
        rw [hzero i hi]
        by_contra hne
        simp only [Bool.not_eq_false] at hne
        have := project_Q2S_mono
          (fun q => qvPass_le Qm sg Qog (project_Q2S NA Q) Q q) i hne
        rw [hzero i hi] at this
        cases this
      rw [qvLoop_stop hstop2, qvLoop_stop hstop2]
  | succ c ih =>
    intro Q S_old hc fuel hf
    by_cases hstop : sArrEq NS (project_Q2S NA Q) S_old = true
    · rw [qvLoop_stop hstop, qvLoop_stop hstop]
    · obtain ⟨f', rfl⟩ : ∃ f', fuel = f' + 1 := ⟨fuel - 1, by omega⟩
      conv_lhs => rw [qvLoop]
      conv_rhs => rw [qvLoop]
      rw [if_neg hstop, if_neg hstop]
      by_cases hstop2 : sArrEq NS
          (project_Q2S NA (qvPass Qm sg Qog (project_Q2S NA Q) Q))
          (project_Q2S NA Q) = true
      · rw [qvLoop_stop hstop2, qvLoop_stop hstop2]
      · have hle : ∀ q, qvPass Qm sg Qog (project_Q2S NA Q) Q q = true →
            Q q = true := fun q => qvPass_le Qm sg Qog (project_Q2S NA Q) Q q
        have hprojle := @project_Q2S_mono NA _ _ hle
        have hwit : ∃ i < NS,
            project_Q2S NA (qvPass Qm sg Qog (project_Q2S NA Q) Q) i ≠
              project_Q2S NA Q i := by
          by_contra hall
          push_neg at hall
          exact hstop2 (sArrEq_iff.mpr hall)
        rcases hwit with ⟨i, hi, hne⟩
        have hQ'f : project_Q2S NA (qvPass Qm sg Qog (project_Q2S NA Q) Q) i
            = false := by
          cases h1 : project_Q2S NA (qvPass Qm sg Qog (project_Q2S NA Q) Q) i with
          | false => rfl
          | true => exact absurd (h1.trans (hprojle i h1).symm) hne
        have hQt : project_Q2S NA Q i = true := by
          cases h2 : project_Q2S NA Q i with
          | true => rfl
          | false => exact absurd (hQ'f.trans h2.symm) hne
        have hcount : countTrue NS
            (project_Q2S NA (qvPass Qm sg Qog (project_Q2S NA Q) Q)) <
              countTrue NS (project_Q2S NA Q) :=
          countTrue_lt_of_witness hprojle i hi hQ'f hQt
        have hc' : countTrue NS
            (project_Q2S NA (qvPass Qm sg Qog (project_Q2S NA Q) Q)) ≤ c := by
          omega
        exact ih _ (project_Q2S NA Q) hc' f' (by omega)

theorem is_outside_iff (s : ℕ) (sg : List (List ℚ)) (S_V : ℕ → Bool)
    (og : Bool) :
    (is_outside s sg S_V og = true ↔
      (if og = true then
        S_V (ravelMulti (unravelIndex s (gridSizes sg)) (gridSizes sg)) = false
      else
        (get_grid_indices ((unravelIndex s (binShape sg)).map Int.ofNat) sg = [] ∨
          ∃ c ∈ get_grid_indices ((unravelIndex s (binShape sg)).map Int.ofNat) sg,
            S_V (ravelMulti (c.map Int.toNat) (gridSizes sg)) = false))) := by
  cases og with
  | true =>
    simp only [is_outside, if_pos, Bool.not_eq_true']
  | false =>
    simp only [is_outside, Bool.false_eq_true, if_false]
    by_cases hemp :
        get_grid_indices ((unravelIndex s (binShape sg)).map Int.ofNat) sg = []
    · rw [hemp]
      simp
    · rw [if_pos (List.length_pos.mpr hemp)]
      rw [List.any_eq_true]
      simp only [Bool.not_eq_true']
      constructor
      · intro h
        exact Or.inr h
      · intro h
        rcases h with h | h
        · exact absurd h hemp
        · exact h

theorem npDigitize_sorted {g : List ℚ} (v : ℚ) (hg : List.Sorted (· < ·) g) :
    npDigitize v g = (g.filter fun x => decide (x ≤ v)).length := by
  induction g with
  | nil => rfl
  | cons b bs ih =>
    rw [List.sorted_cons] at hg
    rcases hg with ⟨hb, hbs⟩
    by_cases hv : v < b
    · rw [npDigitize, if_pos hv]
      have : (b :: bs).filter (fun x => decide (x ≤ v)) = [] := by
        rw [List.filter_eq_nil_iff]
        intro x hx
        rcases List.mem_cons.mp hx with rfl | hxbs
        · simp only [decide_eq_true_eq]
          exact not_le.mpr hv
        · simp only [decide_eq_true_eq]
          exact not_le.mpr (hv.trans (hb x hxbs))
      rw [this]
      rfl
    · rw [npDigitize, if_neg hv]
      rw [List.filter_cons_of_pos (by simpa using not_lt.mp hv)]
      rw [List.length_cons, ih hbs]

/-- C1: within compute_QV, a currently viable state-action pair q is
cleared by a pass (its successor is outside) exactly as the spec states:
with the on-grid flag, iff S_V is false at the single recorded grid node;
otherwise, iff the corner set of the recorded bin is empty or some corner
index is not in S_V. -/
theorem C1_solver_outside_rule (Qm : ℕ → ℕ) (sg : List (List ℚ))
    (Qog S_V Q_V : ℕ → Bool) (q : ℕ) (hq : Q_V q = true) :
    (qvPass Qm sg Qog S_V Q_V q = false ↔
      (if Qog q = true then
        S_V (ravelMulti (unravelIndex (Qm q) (gridSizes sg)) (gridSizes sg)) = false
      else
        (get_grid_indices ((unravelIndex (Qm q) (binShape sg)).map Int.ofNat) sg = [] ∨
          ∃ c ∈ get_grid_indices ((unravelIndex (Qm q) (binShape sg)).map Int.ofNat) sg,
            S_V (ravelMulti (c.map Int.toNat) (gridSizes sg)) = false))) := by
  have h1 : qvPass Qm sg Qog S_V Q_V q = !(is_outside (Qm q) sg S_V (Qog q)) := by
    simp [qvPass, hq]
  rw [h1, Bool.not_eq_false']
  exact is_outside_iff (Qm q) sg S_V (Qog q)

/-- Witness for C1 at a concrete input: a single-point state grid, every
state viable, successor bin 0 with its corner inside S_V, so the pair is
not cleared. -/
theorem C1_witness :
    (qvPass (fun _ => 0) [[(0 : ℚ)]] (fun _ => false) (fun _ => true)
        (fun _ => true) 0 = false ↔
      (if (fun _ => false) 0 = true then
        (fun _ => true)
          (ravelMulti (unravelIndex ((fun _ => (0 : ℕ)) 0) (gridSizes [[(0 : ℚ)]]))
            (gridSizes [[(0 : ℚ)]])) = false
      else
        (get_grid_indices
            ((unravelIndex ((fun _ => (0 : ℕ)) 0) (binShape [[(0 : ℚ)]])).map Int.ofNat)
            [[(0 : ℚ)]] = [] ∨
          ∃ c ∈ get_grid_indices
              ((unravelIndex ((fun _ => (0 : ℕ)) 0) (binShape [[(0 : ℚ)]])).map Int.ofNat)
              [[(0 : ℚ)]],
            (fun _ => true) (ravelMulti (c.map Int.toNat) (gridSizes [[(0 : ℚ)]])) =
              false))) :=
  C1_solver_outside_rule (fun _ => 0) [[(0 : ℚ)]] (fun _ => false)
    (fun _ => true) (fun _ => true) 0 rfl

/-- C3 counterexample: the claim says the per-dimension bin index is the
count of grid points strictly below v; at the strictly increasing grid [0]
and v = 0 the code (np.digitize, right-closed boundary) yields index 1
while the strict count is 0. -/
theorem C3_counterexample :
    ¬ (∀ (g : List ℚ) (v : ℚ), List.Sorted (· < ·) g →
        digitize_s [v] [g] true =
          some [(g.filter fun x => decide (x < v)).length]) := by
  intro h
  have h0 := h [0] 0 (List.sorted_singleton 0)
  rw [show digitize_s [(0 : ℚ)] [[(0 : ℚ)]] true = some [1] from rfl] at h0
  simp at h0

/-- C3 amended: for a strictly increasing one-dimensional grid g, the bin
index computed by digitize_s equals the count of grid points less than or
EQUAL to v (left-closed digitization); hence index 0 means v is strictly
below every (so the first) grid point and index n means every (so the last)
grid point is at most v. -/
theorem C3_digitize_count_le (g : List ℚ) (v : ℚ)
    (hg : List.Sorted (· < ·) g) :
    digitize_s [v] [g] true = some [(g.filter fun x => decide (x ≤ v)).length] ∧
    ((g.filter fun x => decide (x ≤ v)).length = 0 ↔ ∀ x ∈ g, v < x) ∧
    ((g.filter fun x => decide (x ≤ v)).length = g.length ↔ ∀ x ∈ g, x ≤ v) := by
  refine ⟨?_, ?_, ?_⟩
  · rw [show digitize_s [v] [g] true = some [npDigitize v g] by
      simp [digitize_s]]
    rw [npDigitize_sorted v hg]
  · rw [List.length_eq_zero, List.filter_eq_nil_iff]
    constructor
    · intro h x hx
      have := h x hx
      simp only [decide_eq_true_eq] at this
      exact not_le.mp this
    · intro h x hx
      simp only [decide_eq_true_eq]
      exact not_le.mpr (h x hx)
  · rw [List.filter_length_eq_length]
    constructor
    · intro h x hx
      have := h x hx
      simpa using this
    · intro h x hx
      simpa using h x hx

/-- Witness for C3 amended at the strictly increasing grid [0, 1] and
coordinate one half: bin index 1. -/
theorem C3_witness :
    digitize_s [(1 : ℚ)/2] [[(0 : ℚ), 1]] true =
      some [(([(0 : ℚ), 1]).filter fun x => decide (x ≤ (1 : ℚ)/2)).length] :=
  (C3_digitize_count_le [(0 : ℚ), 1] ((1 : ℚ)/2) (by
    norm_num [List.sorted_cons])).1

/-- C9 counterexample: the claim says digitize fails whenever the point and
grid tuple lengths differ; a two-coordinate point against a one-dimensional
grid tuple has differing lengths yet the code succeeds, silently ignoring
the surplus coordinate. -/
theorem C9_counterexample :
    digitize_s [(0 : ℚ), 0] [[(0 : ℚ)]] true = some [1] ∧
      ([(0 : ℚ), 0]).length ≠ ([[(0 : ℚ)]]).length := by
  constructor
  · rfl
  · decide

/-- C9 amended: digitize_s raises exactly when the point has FEWER
coordinates than the grid tuple (an index error, not a dedicated
DimensionMismatch); for a point at least as long as the grid tuple it
succeeds. -/
theorem C9_digitize_failure_iff (s : List ℚ) (sg : List (List ℚ))
    (tb : Bool) : (digitize_s s sg tb = none ↔ s.length < sg.length) := by
  by_cases h : sg.length ≤ s.length
  · simp [digitize_s, h]
  · simp [digitize_s, h]
    omega

/-- C10: in map_S2Q an entry of Q_M is zero when the pair is not viable,
and also when the pair is viable but the corner set of the recorded
successor bin is empty; every corner index produced stays inside the bounds
of S_M (no out-of-bounds lookup); and a viable pair with a non-empty corner
set receives exactly the arithmetic mean of S_M over the corners. -/
theorem C10_map_S2Q_rule (Qm : ℕ → ℕ) (S_M : ℕ → ℚ) (SMshape : List ℕ)
    (sg : List (List ℚ)) (Q_V Qog : ℕ → Bool) (q : ℕ)
    (hsh : SMshape = gridSizes sg) :
    (Q_V q = false → map_S2Q Qm S_M SMshape sg (some Q_V) (some Qog) q = 0) ∧
    (∀ c ∈ get_grid_indices
        ((if Qog q = true then unravelIndex (Qm q) SMshape
          else unravelIndex (Qm q) (SMshape.map (· + 1))).map Int.ofNat) sg,
      ravelMulti (c.map Int.toNat) SMshape < SMshape.prod) ∧
    (Q_V q = true →
      get_grid_indices
        ((if Qog q = true then unravelIndex (Qm q) SMshape
          else unravelIndex (Qm q) (SMshape.map (· + 1))).map Int.ofNat) sg = [] →
      map_S2Q Qm S_M SMshape sg (some Q_V) (some Qog) q = 0) ∧
    (Q_V q = true →
      get_grid_indices
        ((if Qog q = true then unravelIndex (Qm q) SMshape
          else unravelIndex (Qm q) (SMshape.map (· + 1))).map Int.ofNat) sg ≠ [] →
      map_S2Q Qm S_M SMshape sg (some Q_V) (some Qog) q =
        ((get_grid_indices
          ((if Qog q = true then unravelIndex (Qm q) SMshape
            else unravelIndex (Qm q) (SMshape.map (· + 1))).map Int.ofNat) sg).map
            fun c => S_M (ravelMulti (c.map Int.toNat) SMshape)).sum /
          ((get_grid_indices
            ((if Qog q = true then unravelIndex (Qm q) SMshape
              else unravelIndex (Qm q) (SMshape.map (· + 1))).map Int.ofNat)
              sg).length : ℚ)) := by
  subst hsh
  refine ⟨?_, ?_, ?_, ?_⟩
  · intro hv
    simp [map_S2Q, hv]
  · intro c hc
    have hlen : ((if Qog q = true then unravelIndex (Qm q) (gridSizes sg)
        else unravelIndex (Qm q) ((gridSizes sg).map (· + 1))).map
          Int.ofNat).length = sg.length := by
      cases hog : Qog q <;>
        simp [unravelIndex_length, gridSizes]
    exact corner_ravel_lt hc hlen
  · intro hv hemp
    rw [map_S2Q]
    simp only [Option.getD_some]
    rw [if_pos hv, hemp]
    simp
  · intro hv hne
    rw [map_S2Q]
    simp only [Option.getD_some]
    rw [if_pos hv, if_pos (List.length_pos.mpr hne)]

/-- Witness for C10 at a concrete input: single-point state grid, viable
entry with successor bin 0, one enclosing corner carrying measure 7, so the
entry receives mean 7. -/
theorem C10_witness :
    map_S2Q (fun _ => 0) (fun _ => 7) [1] [[(0 : ℚ)]] (some fun _ => true)
      (some fun _ => false) 0 = 7 := by
  have h := (C10_map_S2Q_rule (fun _ => 0) (fun _ => 7) [1] [[(0 : ℚ)]]
    (fun _ => true) (fun _ => false) 0 rfl).2.2.2 rfl (by decide)
  rw [h]
  have he : get_grid_indices (List.map Int.ofNat
      (if false = true then unravelIndex 0 [1]
        else unravelIndex 0 (List.map (fun x => x + 1) [1]))) [[(0 : ℚ)]] =
      [[0]] := by decide
  rw [he]
  norm_num

/-- C2 counterexample: a transition table built by compute_Q_map on the
state grid [1, 2] with the shift-down oracle, where the pair (1, 0) does
not fail but its successor digitizes to flat bin 0; without a seed,
compute_QV starts that pair as NOT viable even though Q_F is false there,
so the initial viable set is not the pointwise negation of Q_F. -/
theorem C2_counterexample :
    compute_Q_map gridsShift pmShift false =
      some [(0, false, false), (1, false, false)] ∧
    qfOf [(0, false, false), (1, false, false)] 0 = false ∧
    (compute_QV 0 (qmapOf [(0, false, false), (1, false, false)]) gridsShift
      none none).1 0 = false := by
  refine ⟨by decide, by decide, by decide⟩

/-- C2 amended: without a seed the initial viable set of compute_QV (its
state after zero loop iterations) is Q_map read as booleans: a pair starts
viable iff its Q_map entry is nonzero. For a table built by compute_Q_map
this implies every failing pair starts non-viable, but it is not the
negation of Q_F: a non-failing pair stored at flat index 0 also starts
non-viable. -/
theorem C2_init_from_Qmap {X P : Type} (grids grids2 : Grids)
    (pm : PMap X P) (cg : Bool) (es : List (ℕ × Bool × Bool))
    (h : compute_Q_map grids pm cg = some es) (q : ℕ)
    (Qog : Option (ℕ → Bool)) :
    ((compute_QV 0 (qmapOf es) grids2 none Qog).1 q = true ↔ qmapOf es q ≠ 0) ∧
    (qfOf es q = true → (compute_QV 0 (qmapOf es) grids2 none Qog).1 q = false) := by
  constructor
  · simp [compute_QV, qvLoop]
  · intro hf
    have hq : q < es.length := by
      by_contra hge
      have : es.getD q (0, false, false) = (0, false, false) :=
        List.getD_eq_default _ _ (by omega)
      rw [qfOf, this] at hf
      cases hf
    have hmem : es.getD q (0, false, false) ∈ es := getD_mem_of_lt hq _
    rcases mapM_option_mem h _ hmem with ⟨sa, _, hsa⟩
    have hz : (es.getD q (0, false, false)).1 = 0 :=
      qEntry_failed_zero hsa hf
    simp only [List.getD_eq_getElem?_getD] at hz
    simp [compute_QV, qvLoop, qmapOf, hz]

theorem list_any_congr {α : Type} {l : List α} {p r : α → Bool}
    (h : ∀ a ∈ l, p a = r a) : l.any p = l.any r := by
  induction l with
  | nil => rfl
  | cons a l ih =>
    simp only [List.any_cons]
    rw [h a (List.mem_cons_self _ _),
      ih fun b hb => h b (List.mem_cons_of_mem _ hb)]

theorem qfOf_true_qmap_zero {X P : Type} {pm : PMap X P} {grids : Grids}
    {cg : Bool} {es : List (ℕ × Bool × Bool)}
    (h : compute_Q_map grids pm cg = some es) {q : ℕ}
    (hf : qfOf es q = true) : qmapOf es q = 0 := by
  have hq : q < es.length := by
    by_contra hge
    have : es.getD q (0, false, false) = (0, false, false) :=
      List.getD_eq_default _ _ (by omega)
    rw [qfOf, this] at hf
    cases hf
  have hmem : es.getD q (0, false, false) ∈ es := getD_mem_of_lt hq _
  rcases mapM_option_mem h _ hmem with ⟨sa, _, hsa⟩
  exact qEntry_failed_zero hsa hf

/-- Witness for C2 amended at the concrete shift-down table: the pair with
nonzero stored index starts viable. -/
theorem C2_witness :
    ((compute_QV 0 (qmapOf [(0, false, false), (1, false, false)]) gridsShift
        none none).1 1 = true ↔
      qmapOf [(0, false, false), (1, false, false)] 1 ≠ 0) :=
  (C2_init_from_Qmap gridsShift gridsShift pmShift false
    [(0, false, false), (1, false, false)] (by decide) 1 none).1

/-- C7: on a transition table produced by compute_Q_map, running compute_QV
without a seed yields a viable set disjoint from Q_F: for every entry q and
any fuel, Q_V[q] AND Q_F[q] is false. -/
theorem C7_subset_of_not_failed {X P : Type} (grids grids2 : Grids)
    (pm : PMap X P) (cg : Bool) (es : List (ℕ × Bool × Bool))
    (h : compute_Q_map grids pm cg = some es) (fuel q : ℕ)
    (Qog : Option (ℕ → Bool)) :
    ((compute_QV fuel (qmapOf es) grids2 none Qog).1 q && qfOf es q) = false := by
  cases hf : qfOf es q with
  | false => rw [Bool.and_false]
  | true =>
    have hz := qfOf_true_qmap_zero h hf
    have hinit : (compute_QV fuel (qmapOf es) grids2 none Qog).1 q = false := by
      cases hval : (compute_QV fuel (qmapOf es) grids2 none Qog).1 q with
      | false => rfl
      | true =>
        simp only [compute_QV] at hval
        have := qvLoop_fst_le _ _ _ _ _ fuel _ _ _ q hval
        simp only [decide_eq_true_eq] at this
        exact absurd hz this
    rw [hinit, Bool.false_and]

/-- Witness for C7 at a concrete table built from the plain-decode oracle
on the two-state grid. -/
theorem C7_witness :
    ((compute_QV 3 (qmapOf [(1, false, false), (2, false, false)]) gridsSmall
        none none).1 0 &&
      qfOf [(1, false, false), (2, false, false)] 0) = false :=
  C7_subset_of_not_failed gridsSmall gridsSmall pmPlainDecode false
    [(1, false, false), (2, false, false)] (by decide) 3 0 none

/-- C4 counterexample: a pure oracle suite whose decode collaborator xp2s
reads the parameters produced by sa2xp (here the action is stored in the
parameters): the sequential builder decodes with the per-point parameters
while the parallel builder decodes with the attached defaults, so the
transition tables differ. -/
theorem C4_counterexample :
    compute_Q_map gridsParamDecode pmParamDecode false ≠
      parcompute_Q_map gridsParamDecode pmParamDecode false := by decide

/-- C4 amended: the sequential and the parallel builder agree whenever the
decode collaborator xp2s yields the same low-dimensional state under the
per-point parameters produced by sa2xp as under the attached default
parameters (in particular whenever xp2s ignores its parameter argument, as
the repository models do); without that proviso the outputs can differ. -/
theorem C4_builders_agree {X P : Type} (grids : Grids) (pm : PMap X P)
    (cg : Bool)
    (h : ∀ (sa : List ℚ) (x : X),
      pm.xp2s x (pm.sa2xp sa pm.p).2 = pm.xp2s x pm.p) :
    compute_Q_map grids pm cg = parcompute_Q_map grids pm cg := by
  unfold compute_Q_map parcompute_Q_map
  apply mapM_option_congr
  intro sa _
  simp only [qEntry, qEntryPar]
  rw [h sa]

/-- Witness for C4 amended: the plain-decode oracle (xp2s independent of
its parameter argument) on the two-state grid, with grid-exactness checking
on. -/
theorem C4_witness :
    compute_Q_map gridsSmall pmPlainDecode true =
      parcompute_Q_map gridsSmall pmPlainDecode true :=
  C4_builders_agree gridsSmall pmPlainDecode true fun _ _ => rfl

/-- C6: after every solver iteration (any loop state whose S_V is the
projection of its Q_V keeps that property through all remaining
iterations), and at termination of compute_QV for any fuel, seed and
on-grid data, S_V equals the OR-projection of Q_V over the action axes. -/
theorem C6_projection_consistency (Qm : ℕ → ℕ) (grids : Grids) :
    (∀ (Qog : ℕ → Bool) (fuel : ℕ) (Q S_old : ℕ → Bool),
      (qvLoop Qm grids.states Qog (NAg grids) (NSg grids) fuel Q S_old
        (project_Q2S (NAg grids) Q)).2 =
        project_Q2S (NAg grids)
          (qvLoop Qm grids.states Qog (NAg grids) (NSg grids) fuel Q S_old
            (project_Q2S (NAg grids) Q)).1) ∧
    (∀ (fuel : ℕ) (seed Qog : Option (ℕ → Bool)),
      (compute_QV fuel Qm grids seed Qog).2 =
        project_Q2S (NAg grids) (compute_QV fuel Qm grids seed Qog).1) := by
  constructor
  · intro Qog fuel Q S_old
    exact qvLoop_proj _ _ _ _ _ fuel Q S_old
  · intro fuel seed Qog
    cases seed with
    | none => exact qvLoop_proj _ _ _ _ _ fuel _ _
    | some Q => exact qvLoop_proj _ _ _ _ _ fuel _ _

/-- C8: re-running compute_QV with a seed that is a fixed point of the
pruning pass (together with its matching Q_on_grid) returns the seed and
its projection unchanged on every in-range entry, for any fuel. -/
theorem C8_idempotent_on_fixed_point (Qm : ℕ → ℕ) (grids : Grids)
    (Qog Q_V0 : ℕ → Bool)
    (hfix : ∀ q < NQ grids,
      qvPass Qm grids.states Qog (project_Q2S (NAg grids) Q_V0) Q_V0 q = Q_V0 q)
    (fuel : ℕ) :
    (∀ q < NQ grids,
      (compute_QV fuel Qm grids (some Q_V0) (some Qog)).1 q = Q_V0 q) ∧
    (∀ i < NSg grids,
      (compute_QV fuel Qm grids (some Q_V0) (some Qog)).2 i =
        project_Q2S (NAg grids) Q_V0 i) := by
  cases fuel with
  | zero => exact ⟨fun q _ => rfl, fun i _ => rfl⟩
  | succ f =>
    by_cases hstop : sArrEq (NSg grids) (project_Q2S (NAg grids) Q_V0)
        (fun _ => false) = true
    · have heq : compute_QV (f + 1) Qm grids (some Q_V0) (some Qog) =
          (Q_V0, project_Q2S (NAg grids) Q_V0) := by
        simp only [compute_QV, Option.getD_some]
        exact qvLoop_stop hstop _ _
      rw [heq]
      exact ⟨fun q _ => rfl, fun i _ => rfl⟩
    · have hproj : ∀ i < NSg grids,
          project_Q2S (NAg grids)
            (qvPass Qm grids.states Qog (project_Q2S (NAg grids) Q_V0) Q_V0) i =
            project_Q2S (NAg grids) Q_V0 i := by
        intro i hi
        simp only [project_Q2S]
        exact list_any_congr fun j hj =>
          hfix _ (flatQ_lt hi (List.mem_range.mp hj))
      have heq : compute_QV (f + 1) Qm grids (some Q_V0) (some Qog) =
          (qvPass Qm grids.states Qog (project_Q2S (NAg grids) Q_V0) Q_V0,
            project_Q2S (NAg grids)
              (qvPass Qm grids.states Qog (project_Q2S (NAg grids) Q_V0) Q_V0)) := by
        simp only [compute_QV, Option.getD_some]
        rw [qvLoop, if_neg hstop]
        exact qvLoop_stop (sArrEq_iff.mpr hproj) _ _
      rw [heq]
      constructor
      · intro q hq
        exact hfix q hq
      · intro i hi
        exact hproj i hi

/-- Witness for C8: a fully viable seed on the two-state single-action grid
with every successor in the interior bin is a fixed point and is returned
unchanged. -/
theorem C8_witness :
    (compute_QV 5 (fun _ => 1) gridsSmall (some fun _ => true)
      (some fun _ => false)).1 0 = true :=
  (C8_idempotent_on_fixed_point (fun _ => 1) gridsSmall (fun _ => false)
    (fun _ => true) (by decide) 5).1 0 (by decide)

/-- C5: the solver only clears bits: a pruning pass never sets an entry of
Q_V, the loop output is pointwise below its input, so the number of true
entries is non-increasing across iterations; and for in-range Q_map entries
on nonempty grids the loop stabilizes within NQ (the total number of
state-action entries) passes: every fuel of at least NQ gives the same
result as fuel NQ. -/
theorem C5_monotone_and_bounded (Qm : ℕ → ℕ) (grids : Grids)
    (Qog Q_V0 : ℕ → Bool)
    (hstates : ∀ g ∈ grids.states, g ≠ [])
    (hact : 1 ≤ NAg grids)
    (hvalid : ∀ q < NQ grids,
      (Qog q = true → Qm q < NSg grids) ∧
      (Qog q = false → Qm q < (binShape grids.states).prod)) :
    (∀ (S_V Q : ℕ → Bool) (q : ℕ),
      qvPass Qm grids.states Qog S_V Q q = true → Q q = true) ∧
    (∀ (fuel : ℕ) (S_old S_V : ℕ → Bool),
      countTrue (NQ grids)
        (qvLoop Qm grids.states Qog (NAg grids) (NSg grids) fuel Q_V0
          S_old S_V).1 ≤
        countTrue (NQ grids) Q_V0) ∧
    (∀ fuel, NQ grids ≤ fuel →
      qvLoop Qm grids.states Qog (NAg grids) (NSg grids) fuel Q_V0
        (fun _ => false) (project_Q2S (NAg grids) Q_V0) =
      qvLoop Qm grids.states Qog (NAg grids) (NSg grids) (NQ grids) Q_V0
        (fun _ => false) (project_Q2S (NAg grids) Q_V0)) := by
  have hNS : 0 < NSg grids := List.prod_pos (gridSizes_pos hstates)
  have hNSNQ : NSg grids ≤ NQ grids := by
    have h := Nat.mul_le_mul_left (NSg grids) hact
    simpa [NQ] using h
  refine ⟨?_, ?_, ?_⟩
  · exact fun S Q q => qvPass_le Qm grids.states Qog S Q q
  · intro fuel S_old S_V
    exact countTrue_le_of_imp fun q hq =>
      qvLoop_fst_le _ _ _ _ _ fuel _ _ _ q hq
  · intro fuel hfuel
    set c := countTrue (NSg grids) (project_Q2S (NAg grids) Q_V0) with hc
    by_cases hcase : c + 1 ≤ NQ grids
    · have h1 := qvLoop_stable Qm grids.states Qog (NAg grids) (NSg grids) c
        Q_V0 (fun _ => false) hc.ge fuel (by omega)
      have h2 := qvLoop_stable Qm grids.states Qog (NAg grids) (NSg grids) c
        Q_V0 (fun _ => false) hc.ge (NQ grids) (by omega)
      rw [h1, h2]
    · have hcle : c ≤ NSg grids := hc ▸ countTrue_le _ _
      have hcnt : countTrue (NSg grids) (project_Q2S (NAg grids) Q_V0) =
          NSg grids := by omega
      have hfull := countTrue_eq_iff_all.mp hcnt
      have hpass : ∀ q < NQ grids,
          qvPass Qm grids.states Qog (project_Q2S (NAg grids) Q_V0) Q_V0 q =
            Q_V0 q := by
        intro q hq
        have hout : is_outside (Qm q) grids.states
            (project_Q2S (NAg grids) Q_V0) (Qog q) = false := by
          apply is_outside_false_of_all_true _ _ _ _ hstates hfull
          · exact fun h => (hvalid q hq).1 h
          · exact fun h => (hvalid q hq).2 h
        simp [qvPass, hout]
      have hproj2 : ∀ i < NSg grids,
          project_Q2S (NAg grids)
            (qvPass Qm grids.states Qog (project_Q2S (NAg grids) Q_V0) Q_V0) i =
            project_Q2S (NAg grids) Q_V0 i := by
        intro i hi
        simp only [project_Q2S]
        exact list_any_congr fun j hj =>
          hpass _ (flatQ_lt hi (List.mem_range.mp hj))
      have hstop : ¬ sArrEq (NSg grids) (project_Q2S (NAg grids) Q_V0)
          (fun _ => false) = true := by
        intro heq
        have h0 := sArrEq_iff.mp heq 0 hNS
        rw [hfull 0 hNS] at h0
        cases h0
      obtain ⟨f1, rfl⟩ : ∃ f1, fuel = f1 + 1 := ⟨fuel - 1, by omega⟩
      obtain ⟨m, hm⟩ : ∃ m, NQ grids = m + 1 := ⟨NQ grids - 1, by omega⟩
      rw [hm]
      conv_lhs => rw [qvLoop]
      conv_rhs => rw [qvLoop]
      rw [if_neg hstop, if_neg hstop]
      rw [qvLoop_stop (sArrEq_iff.mpr hproj2),
        qvLoop_stop (sArrEq_iff.mpr hproj2)]

/-- Witness for C5 at the two-state single-action grid with all successors
stored in the interior bin: running the loop with fuel 3 equals running it
with fuel NQ = 2. -/
theorem C5_witness :
    qvLoop (fun _ => 1) [[(0 : ℚ), 1]] (fun _ => false) 1 2 3 (fun _ => true)
      (fun _ => false) (project_Q2S 1 fun _ => true) =
    qvLoop (fun _ => 1) [[(0 : ℚ), 1]] (fun _ => false) 1 2 2 (fun _ => true)
      (fun _ => false) (project_Q2S 1 fun _ => true) :=
  (C5_monotone_and_bounded (fun _ => 1) gridsSmall (fun _ => false)
    (fun _ => true) (by decide) (by decide) (by decide)).2.2 3 (by decide)
